import Mathlib

/-!
Verification model of the torrent-candidate resolution and media-path derivation
core in src/nefarious/utils.py: URL host rewriting over urllib.parse, locator
tracing over an explicit network oracle, result filtering and ranking, and
media name/path derivation with the trailing-extension regex.

Strings are modelled by Lean String (a packed List Char); the URL-parsing layer
works on List Char directly.  The network is an oracle from URL to either an
HttpResponse or a transport error, and the functions that may issue requests
also return the number of GET requests performed, so that absence of network
traffic is a provable statement.
-/

namespace Nefarious

/-- ASCII alphabetic test, matching the CPython scheme guard (isascii plus isalpha). -/
def asciiAlpha (c : Char) : Bool :=
  decide ((65 ≤ c.toNat ∧ c.toNat ≤ 90) ∨ (97 ≤ c.toNat ∧ c.toNat ≤ 122))

/-- ASCII digit test. -/
def asciiDigit (c : Char) : Bool := decide (48 ≤ c.toNat ∧ c.toNat ≤ 57)

/-- Characters urllib.parse allows in a URL scheme: letters, digits, plus, minus, dot. -/
def schemeChar (c : Char) : Bool :=
  asciiAlpha c || asciiDigit c || c == '+' || c == '-' || c == '.'

/-- Walk to the first colon, requiring every character on the way to be a scheme
character; returns the candidate scheme and the remainder after the colon. -/
def splitSchemeAux : List Char → Option (List Char × List Char)
  | [] => none
  | c :: rest =>
    if c == ':' then some ([], rest)
    else if schemeChar c then
      match splitSchemeAux rest with
      | some (s, r) => some (c :: s, r)
      | none => none
    else none

/-- Scheme extraction of urllib.parse.urlsplit: the part before the first colon is
taken as the scheme (lower-cased) when the first character is an ASCII letter and
everything before the colon is a scheme character; otherwise there is no scheme. -/
def splitScheme (url : List Char) : List Char × List Char :=
  match url with
  | [] => ([], url)
  | c :: _ =>
    if asciiAlpha c then
      match splitSchemeAux url with
      | some (s, r) => (s.map Char.toLower, r)
      | none => ([], url)
    else ([], url)

/-- A character that terminates the netloc portion of a URL. -/
def netlocStop (c : Char) : Bool := c == '/' || c == '?' || c == '#'

/-- Netloc extraction of urllib.parse.urlsplit: when the remainder starts with two
slashes, the netloc runs up to the next slash, question mark or hash. -/
def splitNetloc (url : List Char) : List Char × List Char :=
  match url with
  | '/' :: '/' :: rest =>
    (rest.takeWhile (fun c => !(netlocStop c)), rest.dropWhile (fun c => !(netlocStop c)))
  | _ => ([], url)

/-- Split at the first occurrence of a separator, dropping the separator; when the
separator does not occur the second component is empty, as in str.split with one
split allowed. -/
def splitOnFirst (sep : Char) (l : List Char) : List Char × List Char :=
  (l.takeWhile (fun c => !(c == sep)), (l.dropWhile (fun c => !(c == sep))).drop 1)

/-- Parameter split of urllib.parse.urlparse: parameters are everything after the
first semicolon in the last path segment. -/
def splitParams (url : List Char) : List Char × List Char :=
  if url.contains '/' then
    let lastSeg := (url.reverse.takeWhile (fun c => !(c == '/'))).reverse
    let pre := (url.reverse.dropWhile (fun c => !(c == '/'))).reverse
    if lastSeg.contains ';' then
      (pre ++ lastSeg.takeWhile (fun c => !(c == ';')),
       (lastSeg.dropWhile (fun c => !(c == ';'))).drop 1)
    else (url, [])
  else
    (url.takeWhile (fun c => !(c == ';')), (url.dropWhile (fun c => !(c == ';'))).drop 1)

/-- The schemes for which urlparse performs the parameter split (uses_params in
urllib.parse, which includes the empty scheme). -/
def usesParams : List (List Char) :=
  ["", "ftp", "hdl", "prospero", "http", "imap", "https", "shttp", "rtsp",
   "rtspu", "sip", "sips", "mms", "sftp", "tel"].map String.data

/-- The six components returned by urllib.parse.urlparse. -/
structure ParseResult where
  scheme : List Char
  netloc : List Char
  path : List Char
  params : List Char
  query : List Char
  fragment : List Char
deriving DecidableEq, Repr

/-- Model of urllib.parse.urlparse: scheme, then netloc, then the fragment is cut
at the first hash, the query at the first question mark, and parameters are split
from the last path segment for the schemes in usesParams. -/
def urlparse (url : List Char) : ParseResult :=
  let s1 := splitScheme url
  let s2 := splitNetloc s1.2
  let s3 := splitOnFirst '#' s2.2
  let s4 := splitOnFirst '?' s3.1
  let pp :=
    if usesParams.contains s1.1 && s4.1.contains ';' then splitParams s4.1
    else (s4.1, [])
  ⟨s1.1, s2.1, pp.1, pp.2, s4.2, s3.2⟩

/-- Modelled from the spec: NefariousSettings is declared in models.py, which is not
part of the analyzed source; per the spec it provides the indexer aggregator
connection parameters host, port and API token, stored as strings. -/
structure NefariousSettings where
  jackett_host : String
  jackett_port : String
  jackett_token : String
deriving DecidableEq, Repr

/-- utils.swap_jackett_host: rebuild the URL from the parsed scheme, the configured
jackett host and port, and the parsed path and query. -/
def swap_jackett_host (url : String) (nefarious_settings : NefariousSettings) : String :=
  let parsed := urlparse url.data
  String.mk (parsed.scheme ++ "://".data ++ nefarious_settings.jackett_host.data
    ++ ":".data ++ nefarious_settings.jackett_port.data
    ++ parsed.path ++ "?".data ++ parsed.query)

/-- utils.is_magnet_url: the URL starts with the magnet prefix. -/
def is_magnet_url (url : String) : Bool := "magnet:".data.isPrefixOf url.data

/-- An HTTP response as observed by trace_torrent_url: status code, optional
Location header, body. -/
structure HttpResponse where
  status : Nat
  location : Option String
  content : String
deriving DecidableEq, Repr

/-- requests: response.ok is a status code below 400. -/
def respOk (r : HttpResponse) : Bool := decide (r.status < 400)

/-- requests: response.is_redirect needs a Location header and one of the redirect
status codes 301, 302, 303, 307, 308. -/
def respIsRedirect (r : HttpResponse) : Bool :=
  r.location.isSome &&
    (r.status == 301 || r.status == 302 || r.status == 303 || r.status == 307 || r.status == 308)

/-- The network as an oracle from URL to a response or a transport error. -/
abbrev Http : Type := String → Except String HttpResponse

/-- utils.trace_torrent_url over an explicit network oracle; the second component
counts the HTTP GET requests performed.  The Location header is only read under
respIsRedirect, which guarantees its presence. -/
def trace_torrent_urlT (http : Http) (url : String) : Except String String × Nat :=
  if is_magnet_url url then (Except.ok url, 0)
  else
    match http url with
    | Except.error e => (Except.error e, 1)
    | Except.ok response =>
      if !(respOk response) then (Except.error response.content, 1)
      else if respIsRedirect response && is_magnet_url (response.location.getD "") then
        (Except.ok (response.location.getD ""), 1)
      else (Except.ok url, 1)

/-- A Jackett search result as consumed by utils.py; torrent_url is the key that
results_with_valid_urls may add (none when absent). -/
structure SearchResult where
  Title : String
  Link : String
  MagnetUri : Option String
  Seeders : Int
  torrent_url : Option String := none
deriving DecidableEq, Repr

/-- The right-hand side of the torrent_url assignment in results_with_valid_urls:
MagnetUri or trace_torrent_url(swap_jackett_host(Link, settings)), with Python
falsiness: both a missing value and an empty string fall through to tracing.  The
second component counts HTTP requests. -/
def resolve_torrent_urlT (http : Http) (result : SearchResult)
    (nefarious_settings : NefariousSettings) : Except String String × Nat :=
  match result.MagnetUri with
  | some m =>
    if m = "" then trace_torrent_urlT http (swap_jackett_host result.Link nefarious_settings)
    else (Except.ok m, 0)
  | none => trace_torrent_urlT http (swap_jackett_host result.Link nefarious_settings)

/-- The effect of one loop iteration of results_with_valid_urls on its record: the
dictionary store happens only after the full right-hand side has been evaluated, so
a failing resolution leaves the record untouched. -/
def annotate_result (http : Http) (nefarious_settings : NefariousSettings)
    (result : SearchResult) : SearchResult :=
  match (resolve_torrent_urlT http result nefarious_settings).1 with
  | Except.ok u => { result with torrent_url := some u }
  | Except.error _ => result

/-- Whether resolution of a candidate succeeds. -/
def resolveOk (http : Http) (nefarious_settings : NefariousSettings)
    (result : SearchResult) : Bool :=
  match (resolve_torrent_urlT http result nefarious_settings).1 with
  | Except.ok _ => true
  | Except.error _ => false

/-- utils.results_with_valid_urls over an explicit network oracle; the second
component counts resolution attempts: exactly one per candidate, and a failure
only skips that candidate. -/
def results_with_valid_urlsT (http : Http) (results : List SearchResult)
    (nefarious_settings : NefariousSettings) : List SearchResult × Nat :=
  match results with
  | [] => ([], 0)
  | result :: rest =>
    let tailn := results_with_valid_urlsT http rest nefarious_settings
    match (resolve_torrent_urlT http result nefarious_settings).1 with
    | Except.ok u => ({ result with torrent_url := some u } :: tailn.1, tailn.2 + 1)
    | Except.error _ => (tailn.1, tailn.2 + 1)

/-- The list of surviving, annotated results. -/
def results_with_valid_urls (http : Http) (results : List SearchResult)
    (nefarious_settings : NefariousSettings) : List SearchResult :=
  (results_with_valid_urlsT http results nefarious_settings).1

/-- One comparison step of get_best_torrent_result: replace the current best only on
strictly more seeders. -/
def bestStep (best_result result : SearchResult) : SearchResult :=
  if best_result.Seeders < result.Seeders then result else best_result

/-- utils.get_best_torrent_result: None on an empty list, otherwise a linear scan
starting from the first element, replacing only on strictly more seeders. -/
def get_best_torrent_result (results : List SearchResult) : Option SearchResult :=
  match results with
  | [] => none
  | first :: _ => some (results.foldl bestStep first)

/-- Modelled from the spec: the typed watch-media records live in models.py, which is
not part of the analyzed source.  Per the spec a movie record exposes its title (its
string form) and an integer release year, and season and episode records expose the
parent show title (the string form of watch_tv_show) and integer season and episode
numbers. -/
inductive WatchMedia where
  | movie (title : String) (releaseYear : Nat)
  | tvSeason (showTitle : String) (seasonNumber : Nat)
  | tvEpisode (showTitle : String) (seasonNumber : Nat) (episodeNumber : Nat)
deriving DecidableEq, Repr

/-- Python format code 02d for a natural number: left-pad with zeros to width two. -/
def format02d (n : Nat) : String := if n < 10 then "0" ++ toString n else toString n

/-- os.path.join on POSIX, for two components. -/
def osPathJoin (a b : String) : String :=
  if b.data.head? == some '/' then b
  else if a.data.isEmpty || a.data.getLast? == some '/' then a ++ b
  else a ++ "/" ++ b

/-- Word characters of the extension regex pattern: ASCII letters, digits and
underscore (release names are ASCII in all uses). -/
def isWordChar (c : Char) : Bool := asciiAlpha c || asciiDigit c || c == '_'

/-- Drop a single newline at the very end: the dollar anchor of the Python pattern
also matches just before a lone newline that ends the string. -/
def stripTrailingNewline (l : List Char) : List Char :=
  match l.reverse with
  | '\n' :: r => r.reverse
  | _ => l

/-- regex.search for a dot followed by one or more word characters, anchored by the
dollar sign, returning the matched text: the maximal trailing run of word characters
together with the dot just before it, with the dollar also matching before a lone
trailing newline. -/
def extensionSearch (l : List Char) : Option (List Char) :=
  let r := (stripTrailingNewline l).reverse
  match r.dropWhile isWordChar with
  | '.' :: _ =>
    let w := r.takeWhile isWordChar
    if w.isEmpty then none else some ('.' :: w.reverse)
  | _ => none

/-- utils.get_media_new_name_and_path: per-variant name and directory, then the
extension of the torrent name is appended to the name when the torrent is a single
file and the trailing-extension pattern matches. -/
def get_media_new_name_and_path (watch_media : WatchMedia) (torrent_name : String)
    (is_single_file : Bool) : String × String :=
  let nd : String × String :=
    match watch_media with
    | WatchMedia.movie title releaseYear =>
      let name := title ++ " (" ++ toString releaseYear ++ ")"
      (name, name)
    | WatchMedia.tvSeason showTitle seasonNumber =>
      ("Season " ++ format02d seasonNumber, showTitle)
    | WatchMedia.tvEpisode showTitle seasonNumber episodeNumber =>
      ("S" ++ format02d seasonNumber ++ "E" ++ format02d episodeNumber,
       osPathJoin showTitle ("Season " ++ format02d seasonNumber))
  if is_single_file then
    match extensionSearch torrent_name.data with
    | some ext => (nd.1 ++ String.mk ext, nd.2)
    | none => nd
  else nd

/-- The name before extension handling, per media variant. -/
def mediaBareName : WatchMedia → String
  | WatchMedia.movie title releaseYear => title ++ " (" ++ toString releaseYear ++ ")"
  | WatchMedia.tvSeason _ seasonNumber => "Season " ++ format02d seasonNumber
  | WatchMedia.tvEpisode _ s e => "S" ++ format02d s ++ "E" ++ format02d e

/-- The directory path, per media variant. -/
def mediaDirName : WatchMedia → String
  | WatchMedia.movie title releaseYear => title ++ " (" ++ toString releaseYear ++ ")"
  | WatchMedia.tvSeason showTitle _ => showTitle
  | WatchMedia.tvEpisode showTitle s _ => osPathJoin showTitle ("Season " ++ format02d s)

/-- The suffix that extension handling appends to the name. -/
def extensionSuffix (torrent_name : String) (is_single_file : Bool) : String :=
  if is_single_file then
    match extensionSearch torrent_name.data with
    | some ext => String.mk ext
    | none => ""
  else ""

/-- The condition exactly as the claim words it: the name ends with a dot followed
by one or more word characters, at end of string. -/
def endsWithDotWordChars (l : List Char) : Bool :=
  !(l.reverse.takeWhile isWordChar).isEmpty &&
    (l.reverse.dropWhile isWordChar).head? == some '.'

/-! ### Generic list lemmas -/

theorem takeWhile_append_all {p : Char → Bool} {a b : List Char}
    (h : ∀ c ∈ a, p c = true) : (a ++ b).takeWhile p = a ++ b.takeWhile p := by
  induction a with
  | nil => simp
  | cons x xs ih =>
    have hx : p x = true := h x (by simp)
    simp only [List.cons_append, List.takeWhile_cons, hx, if_true]
    rw [ih (fun c hc => h c (by simp [hc]))]

theorem dropWhile_append_all {p : Char → Bool} {a b : List Char}
    (h : ∀ c ∈ a, p c = true) : (a ++ b).dropWhile p = b.dropWhile p := by
  induction a with
  | nil => simp
  | cons x xs ih =>
    have hx : p x = true := h x (by simp)
    simp only [List.cons_append, List.dropWhile_cons, hx, if_true]
    exact ih (fun c hc => h c (by simp [hc]))

theorem takeWhile_all {p : Char → Bool} {a : List Char}
    (h : ∀ c ∈ a, p c = true) : a.takeWhile p = a := by
  have := takeWhile_append_all (b := []) h
  simpa using this

theorem dropWhile_all {p : Char → Bool} {a : List Char}
    (h : ∀ c ∈ a, p c = true) : a.dropWhile p = [] := by
  have := dropWhile_append_all (b := []) h
  simpa using this

theorem dropWhile_head_false {p : Char → Bool} {l : List Char} {x : Char} {xs : List Char}
    (h : l.dropWhile p = x :: xs) : p x = false := by
  induction l with
  | nil => simp at h
  | cons y ys ih =>
    rw [List.dropWhile_cons] at h
    by_cases hy : p y = true
    · rw [if_pos hy] at h
      exact ih h
    · rw [if_neg hy] at h
      cases h
      exact Bool.eq_false_iff.mpr hy

theorem dropWhile_ne_nil_of_mem {p : Char → Bool} {l : List Char} {a : Char}
    (ha : a ∈ l) (hpa : p a = false) : l.dropWhile p ≠ [] := by
  induction l with
  | nil => simp at ha
  | cons y ys ih =>
    rw [List.dropWhile_cons]
    by_cases hy : p y = true
    · rw [if_pos hy]
      rcases List.mem_cons.mp ha with h | h
      · subst h
        rw [hy] at hpa
        cases hpa
      · exact ih h
    · rw [if_neg hy]
      simp

/-- Splitting a list at the last occurrence of a separator, reverse-style, rebuilds it. -/
theorem revDrop_append_revTake (q : Char → Bool) (l : List Char) :
    (l.reverse.dropWhile q).reverse ++ (l.reverse.takeWhile q).reverse = l := by
  rw [← List.reverse_append, List.takeWhile_append_dropWhile, List.reverse_reverse]

/-! ### Char.toLower lemmas -/

theorem charOfNat_toNat {n : Nat} (h : n.isValidChar) : (Char.ofNat n).toNat = n := by
  unfold Char.ofNat
  rw [dif_pos h]
  rfl

theorem toLower_toNat (c : Char) :
    c.toLower.toNat = if 65 ≤ c.toNat ∧ c.toNat ≤ 90 then c.toNat + 32 else c.toNat := by
  unfold Char.toLower
  simp only []
  split
  · rw [charOfNat_toNat (by left; omega)]
  · rfl

theorem toLower_eq_self {c : Char} (h : ¬(65 ≤ c.toNat ∧ c.toNat ≤ 90)) : c.toLower = c := by
  unfold Char.toLower
  simp only []
  rw [if_neg]
  intro hc
  exact h (by omega)

theorem toLower_idem (c : Char) : c.toLower.toLower = c.toLower := by
  by_cases h : 65 ≤ c.toNat ∧ c.toNat ≤ 90
  · apply toLower_eq_self
    rw [toLower_toNat, if_pos h]
    omega
  · rw [toLower_eq_self h, toLower_eq_self h]

theorem asciiAlpha_toLower {c : Char} (h : asciiAlpha c = true) :
    asciiAlpha c.toLower = true := by
  by_cases hu : 65 ≤ c.toNat ∧ c.toNat ≤ 90
  · unfold asciiAlpha
    rw [decide_eq_true_iff, toLower_toNat, if_pos hu]
    omega
  · rw [toLower_eq_self hu]
    exact h

theorem schemeChar_toLower {c : Char} (h : schemeChar c = true) :
    schemeChar c.toLower = true := by
  by_cases hu : 65 ≤ c.toNat ∧ c.toNat ≤ 90
  · have halpha : asciiAlpha c.toLower = true := by
      unfold asciiAlpha
      rw [decide_eq_true_iff, toLower_toNat, if_pos hu]
      omega
    unfold schemeChar
    rw [halpha]
    rfl
  · rw [toLower_eq_self hu]
    exact h

theorem schemeChar_ne_colon {c : Char} (h : schemeChar c = true) : (c == ':') = false := by
  rw [beq_eq_false_iff_ne]
  intro hc
  subst hc
  exact absurd h (by decide)

/-! ### Scheme splitting lemmas -/

theorem splitSchemeAux_sound : ∀ {url s r : List Char}, splitSchemeAux url = some (s, r) →
    url = s ++ ':' :: r ∧ s.all schemeChar = true := by
  intro url
  induction url with
  | nil => intro s r h; simp [splitSchemeAux] at h
  | cons c rest ih =>
    intro s r h
    rw [splitSchemeAux] at h
    split at h
    · rename_i hc
      cases h
      have hc2 : c = ':' := by simpa using hc
      subst hc2
      exact ⟨rfl, rfl⟩
    · split at h
      · rename_i hsc
        split at h
        · rename_i s' r' haux
          cases h
          obtain ⟨hurl, hall⟩ := ih haux
          subst hurl
          refine ⟨rfl, ?_⟩
          simp [List.all_cons, hsc, hall]
        · cases h
      · cases h

theorem splitSchemeAux_complete : ∀ {s : List Char} (r : List Char),
    s.all schemeChar = true → splitSchemeAux (s ++ ':' :: r) = some (s, r) := by
  intro s
  induction s with
  | nil =>
    intro r _
    rw [List.nil_append, splitSchemeAux]
    simp
  | cons c s' ih =>
    intro r h
    rw [List.all_cons, Bool.and_eq_true] at h
    rw [List.cons_append, splitSchemeAux]
    rw [if_neg (by simp [schemeChar_ne_colon h.1])]
    rw [if_pos h.1, ih r h.2]

theorem splitScheme_cases (url : List Char) :
    splitScheme url = ([], url) ∨
    ∃ c s' r, url = (c :: s') ++ ':' :: r ∧ asciiAlpha c = true ∧
      (c :: s').all schemeChar = true ∧
      splitScheme url = ((c :: s').map Char.toLower, r) := by
  cases url with
  | nil => left; rfl
  | cons c tail =>
    by_cases hA : asciiAlpha c = true
    · cases haux : splitSchemeAux (c :: tail) with
      | none => left; simp [splitScheme, hA, haux]
      | some sr =>
        obtain ⟨s, r⟩ := sr
        obtain ⟨hurl, hall⟩ := splitSchemeAux_sound haux
        cases s with
        | nil =>
          exfalso
          rw [List.nil_append] at hurl
          have : c = ':' := (List.cons.injEq _ _ _ _ ▸ hurl).1
          subst this
          exact absurd hA (by decide)
        | cons c0 s' =>
          right
          have hc0 : c = c0 := by
            rw [List.cons_append] at hurl
            exact (List.cons.injEq _ _ _ _ ▸ hurl).1
          subst hc0
          refine ⟨c, s', r, hurl, hA, hall, ?_⟩
          simp [splitScheme, hA, haux]
    · left
      simp [splitScheme, hA]

theorem splitScheme_build {c : Char} {s' r : List Char} (hA : asciiAlpha c = true)
    (hall : (c :: s').all schemeChar = true) :
    splitScheme ((c :: s') ++ ':' :: r) = ((c :: s').map Char.toLower, r) := by
  have haux := splitSchemeAux_complete (s := c :: s') r hall
  rw [List.cons_append] at haux ⊢
  simp [splitScheme, hA, haux]

/-! ### Parameter splitting lemmas -/

theorem contains_iff_mem {l : List Char} {a : Char} : l.contains a = true ↔ a ∈ l :=
  List.elem_iff

theorem splitParams_fst_mem {l : List Char} {c : Char} (h : c ∈ (splitParams l).1) :
    c ∈ l := by
  rw [splitParams] at h
  simp only [] at h
  split at h
  · split at h
    · simp only [Prod.fst] at h
      rcases List.mem_append.mp h with h1 | h2
      · have h1a := List.mem_reverse.mp h1
        have h1b := List.Sublist.mem h1a (List.dropWhile_sublist _)
        exact List.mem_reverse.mp h1b
      · have h2a := List.Sublist.mem h2 (List.takeWhile_sublist _)
        have h2b := List.mem_reverse.mp h2a
        have h2c := List.Sublist.mem h2b (List.takeWhile_sublist _)
        exact List.mem_reverse.mp h2c
    · exact h
  · exact List.Sublist.mem h (List.takeWhile_sublist _)

theorem splitParams_stable {l : List Char} (h : (splitParams l).1.contains ';' = true) :
    splitParams ((splitParams l).1) = ((splitParams l).1, []) := by
  by_cases hsl : l.contains '/' = true
  · by_cases hlast : ((l.reverse.takeWhile (fun c => !(c == '/'))).reverse).contains ';' = true
    · -- parameters were stripped from the last segment
      have hfst : (splitParams l).1 =
          (l.reverse.dropWhile (fun c => !(c == '/'))).reverse ++
            ((l.reverse.takeWhile (fun c => !(c == '/'))).reverse).takeWhile (fun c => !(c == ';')) := by
        rw [splitParams, if_pos hsl, if_pos hlast]
      -- the dropped part starts with the last slash
      have hmem : '/' ∈ l.reverse := List.mem_reverse.mpr (contains_iff_mem.mp hsl)
      have hne : l.reverse.dropWhile (fun c => !(c == '/')) ≠ [] :=
        dropWhile_ne_nil_of_mem hmem (by simp)
      obtain ⟨x, zs, hd⟩ : ∃ x zs, l.reverse.dropWhile (fun c => !(c == '/')) = x :: zs := by
        cases hcase : l.reverse.dropWhile (fun c => !(c == '/')) with
        | nil => exact absurd hcase hne
        | cons x zs => exact ⟨x, zs, rfl⟩
      have hx : x = '/' := by
        have := dropWhile_head_false hd
        simpa using this
      subst hx
      set stripped :=
        ((l.reverse.takeWhile (fun c => !(c == '/'))).reverse).takeWhile (fun c => !(c == ';')) with hstr
      -- every character of stripped is not a slash and not a semicolon
      have hstr_noslash : ∀ c ∈ stripped, (!(c == '/')) = true := by
        intro c hc
        have hc1 := List.Sublist.mem hc (List.takeWhile_sublist _)
        have hc2 := List.mem_reverse.mp hc1
        have hc3 := List.mem_takeWhile_imp hc2
        exact hc3
      have hstr_nosemi : ∀ c ∈ stripped, c ≠ ';' := by
        intro c hc
        have := List.mem_takeWhile_imp hc
        simpa using this
      -- compute the reverse decomposition of the new path
      have hrev : ((splitParams l).1).reverse = stripped.reverse ++ '/' :: zs := by
        rw [hfst, List.reverse_append, List.reverse_reverse, hd]
      have htake : ((splitParams l).1).reverse.takeWhile (fun c => !(c == '/')) = stripped.reverse := by
        rw [hrev, takeWhile_append_all (fun c hc => hstr_noslash c (List.mem_reverse.mp hc))]
        simp [List.takeWhile_cons]
      have hcontains : ((splitParams l).1).contains '/' = true := by
        apply contains_iff_mem.mpr
        rw [hfst]
        apply List.mem_append.mpr
        left
        rw [hd]
        simp
      have hlast2 : (((splitParams l).1).reverse.takeWhile (fun c => !(c == '/'))).reverse.contains ';' = false := by
        rw [htake, List.reverse_reverse]
        rw [Bool.eq_false_iff]
        intro hc
        exact hstr_nosemi ';' (contains_iff_mem.mp hc) rfl
      rw [splitParams, if_pos hcontains, if_neg (by rw [hlast2]; simp)]
    · -- nothing stripped: the split returns the input unchanged
      have hfst : splitParams l = (l, []) := by
        rw [splitParams, if_pos hsl, if_neg hlast]
      rw [hfst]
      simp only [Prod.fst]
      rw [splitParams, if_pos hsl, if_neg hlast]
  · -- no slash: the first component has no semicolon left, contradiction with h
    exfalso
    have hfst : (splitParams l).1 = l.takeWhile (fun c => !(c == ';')) := by
      rw [splitParams, if_neg hsl]
    rw [hfst] at h
    have := List.mem_takeWhile_imp (contains_iff_mem.mp h)
    simp at this

/-! ### Netloc and first-separator splitting lemmas -/

theorem splitNetloc_build {a tail : List Char} (ha : ∀ c ∈ a, netlocStop c = false)
    (htail : ∃ x xs, tail = x :: xs ∧ netlocStop x = true) :
    splitNetloc ('/' :: '/' :: (a ++ tail)) = (a, tail) := by
  obtain ⟨x, xs, htl, hx⟩ := htail
  subst htl
  rw [splitNetloc]
  have h1 : (a ++ x :: xs).takeWhile (fun c => !(netlocStop c)) = a := by
    rw [takeWhile_append_all (fun c hc => by rw [ha c hc]; rfl)]
    rw [List.takeWhile_cons, if_neg (by rw [hx]; simp)]
    simp
  have h2 : (a ++ x :: xs).dropWhile (fun c => !(netlocStop c)) = x :: xs := by
    rw [dropWhile_append_all (fun c hc => by rw [ha c hc]; rfl)]
    rw [List.dropWhile_cons, if_neg (by rw [hx]; simp)]
  rw [h1, h2]

theorem splitOnFirst_all {sep : Char} {l : List Char} (h : ∀ c ∈ l, (c == sep) = false) :
    splitOnFirst sep l = (l, []) := by
  rw [splitOnFirst]
  rw [takeWhile_all (fun c hc => by rw [h c hc]; rfl)]
  rw [dropWhile_all (fun c hc => by rw [h c hc]; rfl)]
  rfl

theorem splitOnFirst_build {sep : Char} {a b : List Char} (h : ∀ c ∈ a, (c == sep) = false) :
    splitOnFirst sep (a ++ sep :: b) = (a, b) := by
  rw [splitOnFirst]
  have h1 : (a ++ sep :: b).takeWhile (fun c => !(c == sep)) = a := by
    rw [takeWhile_append_all (fun c hc => by rw [h c hc]; rfl)]
    rw [List.takeWhile_cons, if_neg (by simp)]
    simp
  have h2 : (a ++ sep :: b).dropWhile (fun c => !(c == sep)) = sep :: b := by
    rw [dropWhile_append_all (fun c hc => by rw [h c hc]; rfl)]
    rw [List.dropWhile_cons, if_neg (by simp)]
  rw [h1, h2]
  rfl

/-! ### Facts about the components urlparse returns -/

theorem urlparse_scheme_shape (url : List Char) :
    (urlparse url).scheme = [] ∨
    ∃ c s', (urlparse url).scheme = c :: s' ∧ asciiAlpha c = true ∧
      (urlparse url).scheme.all schemeChar = true ∧
      (urlparse url).scheme.map Char.toLower = (urlparse url).scheme := by
  have hsch : (urlparse url).scheme = (splitScheme url).1 := rfl
  rcases splitScheme_cases url with h | ⟨c, s', r, hurl, hA, hall, heq⟩
  · left
    rw [hsch, h]
  · right
    rw [hsch, heq]
    simp only [List.map_cons]
    refine ⟨Char.toLower c, s'.map Char.toLower, rfl, asciiAlpha_toLower hA, ?_, ?_⟩
    · rw [List.all_eq_true] at hall ⊢
      intro x hx
      rcases List.mem_cons.mp hx with h1 | h1
      · subst h1
        exact schemeChar_toLower (hall c (by simp))
      · rcases List.mem_map.mp h1 with ⟨y, hy, hxy⟩
        subst hxy
        exact schemeChar_toLower (hall y (by simp [hy]))
    · have hidem : ((c :: s').map Char.toLower).map Char.toLower = (c :: s').map Char.toLower := by
        rw [List.map_map]
        apply List.map_congr_left
        intro a _
        simp only [Function.comp_apply]
        exact toLower_idem a
      simpa using hidem

theorem urlparse_path_query_chars (url : List Char) :
    (∀ c ∈ (urlparse url).path, (c == '#') = false ∧ (c == '?') = false) ∧
    (∀ c ∈ (urlparse url).query, (c == '#') = false) := by
  have hpath : (urlparse url).path =
      (if usesParams.contains (splitScheme url).1 &&
          (((splitNetloc (splitScheme url).2).2.takeWhile (fun c => !(c == '#'))).takeWhile
            (fun c => !(c == '?'))).contains ';' then
        splitParams (((splitNetloc (splitScheme url).2).2.takeWhile (fun c => !(c == '#'))).takeWhile
          (fun c => !(c == '?')))
      else ((((splitNetloc (splitScheme url).2).2.takeWhile (fun c => !(c == '#'))).takeWhile
          (fun c => !(c == '?'))), [])).1 := rfl
  have hquery : (urlparse url).query =
      (((splitNetloc (splitScheme url).2).2.takeWhile (fun c => !(c == '#'))).dropWhile
        (fun c => !(c == '?'))).drop 1 := rfl
  constructor
  · intro c hc
    rw [hpath] at hc
    have hc4 : c ∈ ((splitNetloc (splitScheme url).2).2.takeWhile (fun c => !(c == '#'))).takeWhile
        (fun c => !(c == '?')) := by
      by_cases hg : (usesParams.contains (splitScheme url).1 &&
          (((splitNetloc (splitScheme url).2).2.takeWhile (fun c => !(c == '#'))).takeWhile
            (fun c => !(c == '?'))).contains ';') = true
      · rw [if_pos hg] at hc
        exact splitParams_fst_mem hc
      · rw [if_neg hg] at hc
        exact hc
    have hq : (c == '?') = false := by
      have := List.mem_takeWhile_imp hc4
      simpa using this
    have hc3 : c ∈ (splitNetloc (splitScheme url).2).2.takeWhile (fun c => !(c == '#')) :=
      List.Sublist.mem hc4 (List.takeWhile_sublist _)
    have hh : (c == '#') = false := by
      have := List.mem_takeWhile_imp hc3
      simpa using this
    exact ⟨hh, hq⟩
  · intro c hc
    rw [hquery] at hc
    have hc2 := List.Sublist.mem hc (List.drop_sublist _ _)
    have hc3 := List.Sublist.mem hc2 (List.dropWhile_sublist _)
    have := List.mem_takeWhile_imp hc3
    simpa using this

theorem urlparse_params_stable (url : List Char)
    (hu : usesParams.contains (urlparse url).scheme = true)
    (hsemi : (urlparse url).path.contains ';' = true) :
    splitParams (urlparse url).path = ((urlparse url).path, []) := by
  have hsch : (urlparse url).scheme = (splitScheme url).1 := rfl
  have hpath : (urlparse url).path =
      (if usesParams.contains (splitScheme url).1 &&
          (((splitNetloc (splitScheme url).2).2.takeWhile (fun c => !(c == '#'))).takeWhile
            (fun c => !(c == '?'))).contains ';' then
        splitParams (((splitNetloc (splitScheme url).2).2.takeWhile (fun c => !(c == '#'))).takeWhile
          (fun c => !(c == '?')))
      else ((((splitNetloc (splitScheme url).2).2.takeWhile (fun c => !(c == '#'))).takeWhile
          (fun c => !(c == '?'))), [])).1 := rfl
  by_cases hg : (usesParams.contains (splitScheme url).1 &&
      (((splitNetloc (splitScheme url).2).2.takeWhile (fun c => !(c == '#'))).takeWhile
        (fun c => !(c == '?'))).contains ';') = true
  · rw [hpath, if_pos hg] at hsemi ⊢
    exact splitParams_stable hsemi
  · exfalso
    rw [hsch] at hu
    rw [hpath, if_neg hg] at hsemi
    exact hg (by rw [Bool.and_eq_true]; exact ⟨hu, hsemi⟩)

/-- Parsing a URL rebuilt as scheme://host:port path ? query recovers exactly the
pieces it was built from, provided the pieces are shaped like the output of a
previous parse (scheme non-empty, lower-case, of scheme characters; host and port
free of netloc terminators; path empty or absolute, path and query free of the
separators already split off; and parameters not splittable again). -/
theorem urlparse_rebuild {sc host port path query : List Char}
    (hsc : ∃ c s', sc = c :: s' ∧ asciiAlpha c = true ∧ sc.all schemeChar = true ∧
      sc.map Char.toLower = sc)
    (hhost : ∀ c ∈ host, netlocStop c = false)
    (hport : ∀ c ∈ port, netlocStop c = false)
    (hpath1 : path = [] ∨ ∃ t, path = '/' :: t)
    (hpath2 : ∀ c ∈ path, (c == '#') = false ∧ (c == '?') = false)
    (hquery : ∀ c ∈ query, (c == '#') = false)
    (hparams : usesParams.contains sc = true → path.contains ';' = true →
      splitParams path = (path, [])) :
    urlparse (sc ++ "://".data ++ host ++ ":".data ++ port ++ path ++ "?".data ++ query) =
      ⟨sc, host ++ ':' :: port, path, [], query, []⟩ := by
  obtain ⟨c, s', hsc_eq, hA, hall, hlower⟩ := hsc
  have hlist : sc ++ "://".data ++ host ++ ":".data ++ port ++ path ++ "?".data ++ query
      = (c :: s') ++ ':' :: ('/' :: '/' :: (host ++ ':' :: (port ++ (path ++ '?' :: query)))) := by
    subst hsc_eq
    have hd1 : "://".data = [':', '/', '/'] := rfl
    have hd2 : ":".data = [':'] := rfl
    have hd3 : "?".data = ['?'] := rfl
    rw [hd1, hd2, hd3]
    simp [List.append_assoc]
  rw [hlist]
  have h1 : splitScheme ((c :: s') ++ ':' ::
      ('/' :: '/' :: (host ++ ':' :: (port ++ (path ++ '?' :: query))))) =
      (sc, '/' :: '/' :: (host ++ ':' :: (port ++ (path ++ '?' :: query)))) := by
    rw [splitScheme_build hA (by rw [← hsc_eq]; exact hall)]
    rw [← hsc_eq, hlower]
  have h2 : splitNetloc ('/' :: '/' :: ((host ++ ':' :: port) ++ (path ++ '?' :: query))) =
      (host ++ ':' :: port, path ++ '?' :: query) := by
    apply splitNetloc_build
    · intro x hx
      rcases List.mem_append.mp hx with hx1 | hx1
      · exact hhost x hx1
      · rcases List.mem_cons.mp hx1 with hx2 | hx2
        · subst hx2
          rfl
        · exact hport x hx2
    · rcases hpath1 with hp | ⟨t, hp⟩
      · subst hp
        exact ⟨'?', query, rfl, rfl⟩
      · subst hp
        exact ⟨'/', t ++ '?' :: query, rfl, rfl⟩
  have h3 : splitOnFirst '#' (path ++ '?' :: query) = (path ++ '?' :: query, []) := by
    apply splitOnFirst_all
    intro x hx
    rcases List.mem_append.mp hx with hx1 | hx1
    · exact (hpath2 x hx1).1
    · rcases List.mem_cons.mp hx1 with hx2 | hx2
      · subst hx2
        rfl
      · exact hquery x hx2
  have h4 : splitOnFirst '?' (path ++ '?' :: query) = (path, query) :=
    splitOnFirst_build (fun x hx => (hpath2 x hx).2)
  have h5 : (if usesParams.contains sc && path.contains ';' then splitParams path
      else (path, [])) = (path, []) := by
    by_cases hg : (usesParams.contains sc && path.contains ';') = true
    · rw [if_pos hg]
      rw [Bool.and_eq_true] at hg
      exact hparams hg.1 hg.2
    · rw [if_neg hg]
  have hassoc : host ++ ':' :: (port ++ (path ++ '?' :: query)) =
      (host ++ ':' :: port) ++ (path ++ '?' :: query) := by
    simp [List.append_assoc]
  rw [urlparse]
  rw [h1]
  dsimp only
  rw [hassoc, h2]
  dsimp only
  rw [h3]
  dsimp only
  rw [h4]
  dsimp only
  rw [h5]

/-- Re-parsing the output of swap_jackett_host recovers the original scheme, path and
query together with the configured netloc, for URLs with a scheme whose path is
empty or absolute and for well-formed host and port settings. -/
theorem urlparse_swap (u : String) (ns : NefariousSettings)
    (H1 : (urlparse u.data).scheme ≠ [])
    (H2 : (urlparse u.data).path = [] ∨ (urlparse u.data).path.head? = some '/')
    (H3 : ∀ c ∈ ns.jackett_host.data, netlocStop c = false)
    (H4 : ∀ c ∈ ns.jackett_port.data, netlocStop c = false) :
    urlparse (swap_jackett_host u ns).data =
      ⟨(urlparse u.data).scheme, ns.jackett_host.data ++ ':' :: ns.jackett_port.data,
       (urlparse u.data).path, [], (urlparse u.data).query, []⟩ := by
  have hdata : (swap_jackett_host u ns).data =
      (urlparse u.data).scheme ++ "://".data ++ ns.jackett_host.data ++ ":".data ++
        ns.jackett_port.data ++ (urlparse u.data).path ++ "?".data ++
        (urlparse u.data).query := rfl
  rw [hdata]
  apply urlparse_rebuild
  · rcases urlparse_scheme_shape u.data with h | ⟨c, s', hcs, hA, hall, hlow⟩
    · exact absurd h H1
    · exact ⟨c, s', hcs, hA, hall, hlow⟩
  · exact H3
  · exact H4
  · rcases H2 with h | h
    · exact Or.inl h
    · right
      cases hcase : (urlparse u.data).path with
      | nil => rw [hcase] at h; cases h
      | cons a t =>
        rw [hcase] at h
        simp only [List.head?] at h
        cases h
        exact ⟨t, rfl⟩
  · exact (urlparse_path_query_chars u.data).1
  · exact (urlparse_path_query_chars u.data).2
  · exact urlparse_params_stable u.data

/-! ### Claims C8 and C9: host rewriting -/

/-- C8 (amended): for every URL whose parsed scheme is non-empty and whose parsed
path is empty or starts with a slash, and for settings whose host and port contain
no slash, question mark or hash, swap_jackett_host replaces exactly the netloc with
the configured host and port while the scheme, path and query parse back unchanged. -/
theorem swap_jackett_host_preserves_components (u : String) (ns : NefariousSettings)
    (H1 : (urlparse u.data).scheme ≠ [])
    (H2 : (urlparse u.data).path = [] ∨ (urlparse u.data).path.head? = some '/')
    (H3 : ∀ c ∈ ns.jackett_host.data, netlocStop c = false)
    (H4 : ∀ c ∈ ns.jackett_port.data, netlocStop c = false) :
    (urlparse (swap_jackett_host u ns).data).scheme = (urlparse u.data).scheme ∧
    (urlparse (swap_jackett_host u ns).data).path = (urlparse u.data).path ∧
    (urlparse (swap_jackett_host u ns).data).query = (urlparse u.data).query ∧
    (urlparse (swap_jackett_host u ns).data).netloc =
      ns.jackett_host.data ++ ':' :: ns.jackett_port.data := by
  rw [urlparse_swap u ns H1 H2 H3 H4]
  exact ⟨rfl, rfl, rfl, rfl⟩

/-- C8 witness: the amended statement applies to a concrete indexer link and
concrete settings. -/
theorem swap_jackett_host_preserves_components_witness :
    (urlparse (swap_jackett_host "http://orig.example:443/api/v2.0/indexers/all/results?apikey=abc&t=search"
        ⟨"jackett", "9117", "token"⟩).data).scheme =
      (urlparse "http://orig.example:443/api/v2.0/indexers/all/results?apikey=abc&t=search".data).scheme ∧
    (urlparse (swap_jackett_host "http://orig.example:443/api/v2.0/indexers/all/results?apikey=abc&t=search"
        ⟨"jackett", "9117", "token"⟩).data).path =
      (urlparse "http://orig.example:443/api/v2.0/indexers/all/results?apikey=abc&t=search".data).path ∧
    (urlparse (swap_jackett_host "http://orig.example:443/api/v2.0/indexers/all/results?apikey=abc&t=search"
        ⟨"jackett", "9117", "token"⟩).data).query =
      (urlparse "http://orig.example:443/api/v2.0/indexers/all/results?apikey=abc&t=search".data).query ∧
    (urlparse (swap_jackett_host "http://orig.example:443/api/v2.0/indexers/all/results?apikey=abc&t=search"
        ⟨"jackett", "9117", "token"⟩).data).netloc =
      ("jackett" : String).data ++ ':' :: ("9117" : String).data :=
  swap_jackett_host_preserves_components
    "http://orig.example:443/api/v2.0/indexers/all/results?apikey=abc&t=search"
    ⟨"jackett", "9117", "token"⟩ (by decide) (by decide) (by decide) (by decide)

/-- C8 counterexample: on a URL without a scheme the rewrite garbles the path, so
the preservation claim does not hold for every URL. -/
theorem swap_jackett_host_schemeless_cex :
    (urlparse (swap_jackett_host "/foo" ⟨"jackett", "9117", "token"⟩).data).path ≠
      (urlparse "/foo".data).path := by
  decide

/-- C9 (amended): swap_jackett_host is idempotent on URLs whose parsed scheme is
non-empty and whose parsed path is empty or starts with a slash, for settings whose
host and port contain no slash, question mark or hash. -/
theorem swap_jackett_host_idempotent (u : String) (ns : NefariousSettings)
    (H1 : (urlparse u.data).scheme ≠ [])
    (H2 : (urlparse u.data).path = [] ∨ (urlparse u.data).path.head? = some '/')
    (H3 : ∀ c ∈ ns.jackett_host.data, netlocStop c = false)
    (H4 : ∀ c ∈ ns.jackett_port.data, netlocStop c = false) :
    swap_jackett_host (swap_jackett_host u ns) ns = swap_jackett_host u ns := by
  have h := urlparse_swap u ns H1 H2 H3 H4
  apply String.ext
  have hdata : ∀ v : String, (swap_jackett_host v ns).data =
      (urlparse v.data).scheme ++ "://".data ++ ns.jackett_host.data ++ ":".data ++
        ns.jackett_port.data ++ (urlparse v.data).path ++ "?".data ++
        (urlparse v.data).query := fun _ => rfl
  rw [hdata (swap_jackett_host u ns), h]
  dsimp only
  rw [hdata u]

/-- C9 witness: idempotence applies to a concrete indexer link and settings. -/
theorem swap_jackett_host_idempotent_witness :
    swap_jackett_host (swap_jackett_host "http://orig.example:443/api?apikey=abc"
        ⟨"jackett", "9117", "token"⟩) ⟨"jackett", "9117", "token"⟩ =
      swap_jackett_host "http://orig.example:443/api?apikey=abc" ⟨"jackett", "9117", "token"⟩ :=
  swap_jackett_host_idempotent "http://orig.example:443/api?apikey=abc"
    ⟨"jackett", "9117", "token"⟩ (by decide) (by decide) (by decide) (by decide)

/-- C9 counterexample: a URL with a scheme but a relative path is not rewritten
idempotently, so idempotence does not hold for every URL. -/
theorem swap_jackett_host_not_idempotent_cex :
    swap_jackett_host (swap_jackett_host "mailto:someone" ⟨"h", "9117", "t"⟩)
        ⟨"h", "9117", "t"⟩ ≠
      swap_jackett_host "mailto:someone" ⟨"h", "9117", "t"⟩ := by
  decide

/-! ### Claim C1: best result selection -/

theorem foldl_bestStep_acc_le : ∀ (l : List SearchResult) (acc : SearchResult),
    acc.Seeders ≤ (l.foldl bestStep acc).Seeders := by
  intro l
  induction l with
  | nil => intro acc; exact le_refl _
  | cons x rest ih =>
    intro acc
    rw [List.foldl_cons]
    refine le_trans ?_ (ih (bestStep acc x))
    rw [bestStep]
    split
    · rename_i h
      exact le_of_lt h
    · exact le_refl _

theorem foldl_bestStep_mem_le : ∀ (l : List SearchResult) (acc r : SearchResult),
    r ∈ l → r.Seeders ≤ (l.foldl bestStep acc).Seeders := by
  intro l
  induction l with
  | nil => intro acc r hr; cases hr
  | cons x rest ih =>
    intro acc r hr
    rw [List.foldl_cons]
    rcases List.mem_cons.mp hr with h | h
    · subst h
      refine le_trans ?_ (foldl_bestStep_acc_le rest (bestStep acc r))
      rw [bestStep]
      split
      · exact le_refl _
      · rename_i h2
        exact le_of_not_lt h2
    · exact ih (bestStep acc x) r h

theorem foldl_bestStep_first : ∀ (l : List SearchResult) (acc : SearchResult),
    l.foldl bestStep acc = acc ∨
    ∃ l1 l2, l = l1 ++ (l.foldl bestStep acc) :: l2 ∧
      acc.Seeders < (l.foldl bestStep acc).Seeders ∧
      ∀ r ∈ l1, r.Seeders < (l.foldl bestStep acc).Seeders := by
  intro l
  induction l with
  | nil => intro acc; left; rfl
  | cons x rest ih =>
    intro acc
    rw [List.foldl_cons]
    by_cases hx : acc.Seeders < x.Seeders
    · have hstep : bestStep acc x = x := by rw [bestStep, if_pos hx]
      rw [hstep]
      rcases ih x with hb | ⟨l1, l2, hsplit, hlt, hall⟩
      · right
        refine ⟨[], rest, ?_, ?_, ?_⟩
        · rw [hb, List.nil_append]
        · rw [hb]
          exact hx
        · intro r hr
          cases hr
      · right
        refine ⟨x :: l1, l2, ?_, ?_, ?_⟩
        · rw [List.cons_append, ← hsplit]
        · exact lt_trans hx hlt
        · intro r hr
          rcases List.mem_cons.mp hr with h | h
          · subst h
            exact hlt
          · exact hall r h
    · have hstep : bestStep acc x = acc := by rw [bestStep, if_neg hx]
      rw [hstep]
      rcases ih acc with hb | ⟨l1, l2, hsplit, hlt, hall⟩
      · left
        exact hb
      · right
        refine ⟨x :: l1, l2, ?_, hlt, ?_⟩
        · rw [List.cons_append, ← hsplit]
        · intro r hr
          rcases List.mem_cons.mp hr with h | h
          · subst h
            exact lt_of_le_of_lt (le_of_not_lt hx) hlt
          · exact hall r h

/-- C1: get_best_torrent_result returns none exactly on the empty list, and on a
non-empty list it returns an element with maximal seeder count that occurs before
every other element attaining the maximum (all elements before it have strictly
fewer seeders). -/
theorem get_best_torrent_result_spec (results : List SearchResult) :
    (get_best_torrent_result results = none ↔ results = []) ∧
    ∀ b, get_best_torrent_result results = some b →
      (∀ r ∈ results, r.Seeders ≤ b.Seeders) ∧
      ∃ l1 l2, results = l1 ++ b :: l2 ∧ ∀ r ∈ l1, r.Seeders < b.Seeders := by
  constructor
  · cases results with
    | nil => simp [get_best_torrent_result]
    | cons first rest => simp [get_best_torrent_result]
  · intro b hb
    cases results with
    | nil => simp [get_best_torrent_result] at hb
    | cons first rest =>
      rw [get_best_torrent_result] at hb
      have hbe : (first :: rest).foldl bestStep first = b := by
        have := Option.some.inj hb
        exact this
      constructor
      · intro r hr
        rw [← hbe]
        exact foldl_bestStep_mem_le (first :: rest) first r hr
      · rcases foldl_bestStep_first (first :: rest) first with h | ⟨l1, l2, hsplit, _, hall⟩
        · refine ⟨[], rest, ?_, ?_⟩
          · rw [List.nil_append, ← hbe, h]
          · intro r hr
            cases hr
        · rw [hbe] at hsplit hall
          exact ⟨l1, l2, hsplit, hall⟩

/-- C1 witness: on a concrete list with a tie for the maximum, the selected result
is the earliest maximal one. -/
theorem get_best_torrent_result_spec_witness :
    (∀ r ∈ [(⟨"a", "", none, 5, none⟩ : SearchResult), ⟨"b", "", none, 7, none⟩,
        ⟨"c", "", none, 7, none⟩], r.Seeders ≤ (⟨"b", "", none, 7, none⟩ : SearchResult).Seeders) ∧
    ∃ l1 l2, [(⟨"a", "", none, 5, none⟩ : SearchResult), ⟨"b", "", none, 7, none⟩,
        ⟨"c", "", none, 7, none⟩] = l1 ++ (⟨"b", "", none, 7, none⟩ : SearchResult) :: l2 ∧
      ∀ r ∈ l1, r.Seeders < (⟨"b", "", none, 7, none⟩ : SearchResult).Seeders :=
  (get_best_torrent_result_spec [⟨"a", "", none, 5, none⟩, ⟨"b", "", none, 7, none⟩,
    ⟨"c", "", none, 7, none⟩]).2 ⟨"b", "", none, 7, none⟩ rfl

/-! ### Resolution lemmas for C2, C3, C10 -/

theorem is_magnet_url_ne_empty {s : String} (h : is_magnet_url s = true) : s ≠ "" := by
  intro he
  subst he
  exact absurd h (by decide)

theorem swap_jackett_host_ne_empty (url : String) (ns : NefariousSettings) :
    swap_jackett_host url ns ≠ "" := by
  intro h
  have hd := congrArg String.data h
  have hdata : (swap_jackett_host url ns).data =
      (urlparse url.data).scheme ++ "://".data ++ ns.jackett_host.data ++ ":".data ++
        ns.jackett_port.data ++ (urlparse url.data).path ++ "?".data ++
        (urlparse url.data).query := rfl
  rw [hdata] at hd
  have h2 : "://".data = [':', '/', '/'] := rfl
  rw [h2] at hd
  simp at hd

theorem trace_ok_ne_empty {http : Http} {url : String} (hurl : url ≠ "") {u : String}
    (h : (trace_torrent_urlT http url).1 = Except.ok u) : u ≠ "" := by
  rw [trace_torrent_urlT] at h
  split at h
  · cases h
    exact hurl
  · split at h
    · cases h
    · split at h
      · cases h
      · split at h
        · rename_i hred
          cases h
          rw [Bool.and_eq_true] at hred
          exact is_magnet_url_ne_empty hred.2
        · cases h
          exact hurl

theorem resolve_ok_ne_empty {http : Http} {ns : NefariousSettings} {r : SearchResult}
    {u : String} (h : (resolve_torrent_urlT http r ns).1 = Except.ok u) : u ≠ "" := by
  rw [resolve_torrent_urlT] at h
  split at h
  · rename_i m hm
    split at h
    · exact trace_ok_ne_empty (swap_jackett_host_ne_empty r.Link ns) h
    · rename_i hme
      cases h
      exact hme
  · exact trace_ok_ne_empty (swap_jackett_host_ne_empty r.Link ns) h

theorem results_with_valid_urlsT_eq (http : Http) (ns : NefariousSettings) :
    ∀ results : List SearchResult,
      (results_with_valid_urlsT http results ns).1 =
        (results.filter (resolveOk http ns)).map (annotate_result http ns) ∧
      (results_with_valid_urlsT http results ns).2 = results.length := by
  intro results
  induction results with
  | nil => exact ⟨rfl, rfl⟩
  | cons r rest ih =>
    rw [results_with_valid_urlsT]
    rw [List.filter_cons]
    cases hres : (resolve_torrent_urlT http r ns).1 with
    | ok u =>
      have hok : resolveOk http ns r = true := by rw [resolveOk, hres]
      have hann : annotate_result http ns r = { r with torrent_url := some u } := by
        rw [annotate_result, hres]
      rw [hok, if_pos rfl, List.map_cons, hann]
      exact ⟨by rw [ih.1], by rw [ih.2, List.length_cons]⟩
    | error e =>
      have hok : resolveOk http ns r = false := by rw [resolveOk, hres]
      rw [hok]
      rw [if_neg (by simp)]
      exact ⟨by rw [ih.1], by rw [ih.2, List.length_cons]⟩

/-- C3: the filtered list is a subsequence of the (per-candidate annotated) input:
never longer than the input, order preserving, each survivor annotated with a
non-empty torrent_url; exactly one resolution attempt is made per candidate and a
failing candidate is skipped without aborting the rest. -/
theorem results_with_valid_urls_subsequence (http : Http) (ns : NefariousSettings)
    (results : List SearchResult) :
    (results_with_valid_urls http results ns).length ≤ results.length ∧
    (results_with_valid_urls http results ns).Sublist
      (results.map (annotate_result http ns)) ∧
    (∀ r ∈ results_with_valid_urls http results ns,
      ∃ u, r.torrent_url = some u ∧ u ≠ "") ∧
    (results_with_valid_urlsT http results ns).2 = results.length ∧
    (∀ r rest, resolveOk http ns r = false →
      results_with_valid_urls http (r :: rest) ns = results_with_valid_urls http rest ns) := by
  have heq := results_with_valid_urlsT_eq http ns results
  refine ⟨?_, ?_, ?_, heq.2, ?_⟩
  · rw [results_with_valid_urls, heq.1, List.length_map]
    exact List.length_filter_le _ _
  · rw [results_with_valid_urls, heq.1]
    exact List.Sublist.map _ (List.filter_sublist _)
  · intro r hr
    rw [results_with_valid_urls, heq.1] at hr
    rcases List.mem_map.mp hr with ⟨r0, hr0, hann⟩
    have hok : resolveOk http ns r0 = true := (List.mem_filter.mp hr0).2
    rw [resolveOk] at hok
    cases hres : (resolve_torrent_urlT http r0 ns).1 with
    | error e =>
      rw [hres] at hok
      cases hok
    | ok u =>
      refine ⟨u, ?_, resolve_ok_ne_empty hres⟩
      rw [← hann, annotate_result, hres]
  · intro r rest hfail
    rw [resolveOk] at hfail
    cases hres : (resolve_torrent_urlT http r ns).1 with
    | ok u =>
      rw [hres] at hfail
      cases hfail
    | error e =>
      rw [results_with_valid_urls, results_with_valid_urlsT]
      simp only [hres]
      rfl

/-- C3 witness: with a network that always fails, a candidate with no magnet link is
skipped while a magnet candidate survives, with one attempt each. -/
theorem results_with_valid_urls_subsequence_witness :
    results_with_valid_urls (fun _ => Except.error "down")
      [(⟨"t", "http://x/y", none, 1, none⟩ : SearchResult)]
      ⟨"jackett", "9117", "tok"⟩ =
    results_with_valid_urls (fun _ => Except.error "down") []
      ⟨"jackett", "9117", "tok"⟩ :=
  (results_with_valid_urls_subsequence (fun _ => Except.error "down")
    ⟨"jackett", "9117", "tok"⟩ []).2.2.2.2 ⟨"t", "http://x/y", none, 1, none⟩ [] (by decide)

/-- C10: a candidate whose resolution fails is left completely unmodified: the
locator is computed before any store, so no torrent_url is added to it; the output
consists exactly of the successfully annotated candidates. -/
theorem results_with_valid_urls_atomic (http : Http) (ns : NefariousSettings)
    (results : List SearchResult) :
    (∀ r : SearchResult, resolveOk http ns r = false → annotate_result http ns r = r) ∧
    results_with_valid_urls http results ns =
      (results.filter (resolveOk http ns)).map (annotate_result http ns) ∧
    (∀ r : SearchResult, r ∈ results → r.torrent_url = none → resolveOk http ns r = false →
      (annotate_result http ns r).torrent_url = none) := by
  have hunmod : ∀ r : SearchResult, resolveOk http ns r = false →
      annotate_result http ns r = r := by
    intro r hfail
    rw [resolveOk] at hfail
    cases hres : (resolve_torrent_urlT http r ns).1 with
    | ok u =>
      rw [hres] at hfail
      cases hfail
    | error e =>
      rw [annotate_result, hres]
  refine ⟨hunmod, (results_with_valid_urlsT_eq http ns results).1, ?_⟩
  intro r _ hnone hfail
  rw [hunmod r hfail, hnone]

/-- C10 witness: a concrete candidate whose locator tracing fails keeps its record
unchanged and gets no torrent_url. -/
theorem results_with_valid_urls_atomic_witness :
    annotate_result (fun _ => Except.error "down") ⟨"jackett", "9117", "tok"⟩
      ⟨"t", "http://x/y", none, 1, none⟩ = ⟨"t", "http://x/y", none, 1, none⟩ ∧
    (annotate_result (fun _ => Except.error "down") ⟨"jackett", "9117", "tok"⟩
      ⟨"t", "http://x/y", none, 1, none⟩).torrent_url = none :=
  ⟨(results_with_valid_urls_atomic (fun _ => Except.error "down") ⟨"jackett", "9117", "tok"⟩
      []).1 ⟨"t", "http://x/y", none, 1, none⟩ (by decide),
   (results_with_valid_urls_atomic (fun _ => Except.error "down") ⟨"jackett", "9117", "tok"⟩
      [⟨"t", "http://x/y", none, 1, none⟩]).2.2 ⟨"t", "http://x/y", none, 1, none⟩
      (by simp) rfl (by decide)⟩

/-- C2: a truthy (non-empty) MagnetUri short-circuits resolution: the magnet value
is returned unchanged with zero network requests, and trace_torrent_url on a magnet
URI likewise returns it unchanged without a request; an empty magnet string instead
falls through to host rewriting and locator tracing. -/
theorem resolve_magnet_short_circuit (http : Http) (ns : NefariousSettings)
    (r : SearchResult) (m : String) :
    (r.MagnetUri = some m → m ≠ "" → resolve_torrent_urlT http r ns = (Except.ok m, 0)) ∧
    (is_magnet_url m = true → trace_torrent_urlT http m = (Except.ok m, 0)) ∧
    (r.MagnetUri = some "" →
      resolve_torrent_urlT http r ns =
        trace_torrent_urlT http (swap_jackett_host r.Link ns)) := by
  refine ⟨?_, ?_, ?_⟩
  · intro hm hne
    rw [resolve_torrent_urlT, hm]
    simp only []
    rw [if_neg hne]
  · intro hmag
    rw [trace_torrent_urlT, if_pos hmag]
  · intro hm
    rw [resolve_torrent_urlT, hm]
    simp

/-- C2 witness: concrete short-circuit and fall-through instances. -/
theorem resolve_magnet_short_circuit_witness :
    resolve_torrent_urlT (fun _ => Except.error "down")
      ⟨"t", "http://x/y", some "magnet:?xt=1", 3, none⟩ ⟨"jackett", "9117", "tok"⟩ =
      (Except.ok "magnet:?xt=1", 0) ∧
    trace_torrent_urlT (fun _ => Except.error "down") "magnet:?xt=1" =
      (Except.ok "magnet:?xt=1", 0) ∧
    resolve_torrent_urlT (fun _ => Except.error "down")
      ⟨"t", "http://x/y", some "", 3, none⟩ ⟨"jackett", "9117", "tok"⟩ =
      trace_torrent_urlT (fun _ => Except.error "down")
        (swap_jackett_host "http://x/y" ⟨"jackett", "9117", "tok"⟩) :=
  ⟨(resolve_magnet_short_circuit (fun _ => Except.error "down") ⟨"jackett", "9117", "tok"⟩
      ⟨"t", "http://x/y", some "magnet:?xt=1", 3, none⟩ "magnet:?xt=1").1 rfl (by decide),
   (resolve_magnet_short_circuit (fun _ => Except.error "down") ⟨"jackett", "9117", "tok"⟩
      ⟨"t", "http://x/y", some "magnet:?xt=1", 3, none⟩ "magnet:?xt=1").2.1 (by decide),
   (resolve_magnet_short_circuit (fun _ => Except.error "down") ⟨"jackett", "9117", "tok"⟩
      ⟨"t", "http://x/y", some "", 3, none⟩ "").2.2 rfl⟩

/-! ### Extension regex characterization, claims C4 to C7 -/

/-- The trailing-extension search succeeds exactly when the release name, after
discarding a single trailing newline, ends with a dot followed by one or more word
characters, and the match is that dot together with the maximal trailing word run. -/
theorem extensionSearch_eq_some_iff (l e : List Char) :
    extensionSearch l = some e ↔
    ∃ p w, w ≠ [] ∧ (∀ c ∈ w, isWordChar c = true) ∧
      stripTrailingNewline l = p ++ '.' :: w ∧ e = '.' :: w := by
  constructor
  · intro h
    rw [extensionSearch] at h
    split at h
    · rename_i t hdrop
      by_cases hw : ((stripTrailingNewline l).reverse.takeWhile isWordChar).isEmpty = true
      · rw [if_pos hw] at h
        cases h
      · rw [if_neg hw] at h
        have he := Option.some.inj h
        refine ⟨t.reverse, ((stripTrailingNewline l).reverse.takeWhile isWordChar).reverse,
          ?_, ?_, ?_, ?_⟩
        · intro hnil
          apply hw
          rw [List.isEmpty_iff]
          exact List.reverse_eq_nil_iff.mp hnil
        · intro c hc
          exact List.mem_takeWhile_imp (List.mem_reverse.mp hc)
        · have hsplit : (stripTrailingNewline l).reverse =
              (stripTrailingNewline l).reverse.takeWhile isWordChar ++ '.' :: t := by
            conv_lhs => rw [← List.takeWhile_append_dropWhile isWordChar
              (stripTrailingNewline l).reverse]
            rw [hdrop]
          have h2 := congrArg List.reverse hsplit
          rw [List.reverse_reverse, List.reverse_append, List.reverse_cons] at h2
          conv_lhs => rw [h2]
          simp [List.append_assoc]
        · rw [← he]
    · cases h
  · rintro ⟨p, w, hwne, hall, hsplit, he⟩
    subst he
    rw [extensionSearch]
    have hrev : (stripTrailingNewline l).reverse = w.reverse ++ '.' :: p.reverse := by
      rw [hsplit, List.reverse_append, List.reverse_cons]
      simp [List.append_assoc]
    have hdrop : (stripTrailingNewline l).reverse.dropWhile isWordChar = '.' :: p.reverse := by
      rw [hrev, dropWhile_append_all (fun c hc => hall c (List.mem_reverse.mp hc))]
      rw [List.dropWhile_cons, if_neg (by decide)]
    have htake : (stripTrailingNewline l).reverse.takeWhile isWordChar = w.reverse := by
      rw [hrev, takeWhile_append_all (fun c hc => hall c (List.mem_reverse.mp hc))]
      rw [List.takeWhile_cons, if_neg (by decide)]
      simp
    rw [hdrop, htake]
    simp [List.isEmpty_iff, List.reverse_eq_nil_iff, hwne]

/-- The result of get_media_new_name_and_path is the per-variant bare name with the
extension suffix appended, together with the per-variant directory. -/
theorem get_media_eq (watch_media : WatchMedia) (torrent_name : String)
    (is_single_file : Bool) :
    get_media_new_name_and_path watch_media torrent_name is_single_file =
      (mediaBareName watch_media ++ extensionSuffix torrent_name is_single_file,
       mediaDirName watch_media) := by
  cases watch_media <;> cases is_single_file <;>
    cases hext : extensionSearch torrent_name.data <;>
      simp [get_media_new_name_and_path, mediaBareName, mediaDirName, extensionSuffix,
        hext, String.append_empty]

/-- C4 (amended): extension appending happens exactly when isSingleFile is true and
the release name, after discarding a single trailing newline (the dollar anchor also
matches just before one), ends with a dot followed by one or more word characters;
the matched extension is appended verbatim to the name only; with
isSingleFile false the name stays the bare label, and bracketed tags after the
extension prevent any match. -/
theorem get_media_extension_characterization (m : WatchMedia) (tn : String)
    (isf : Bool) (e : List Char) :
    get_media_new_name_and_path m tn isf =
      (mediaBareName m ++ extensionSuffix tn isf, mediaDirName m) ∧
    (isf = false → get_media_new_name_and_path m tn isf = (mediaBareName m, mediaDirName m)) ∧
    (extensionSearch tn.data = some e ↔
      ∃ p w, w ≠ [] ∧ (∀ c ∈ w, isWordChar c = true) ∧
        stripTrailingNewline tn.data = p ++ '.' :: w ∧ e = '.' :: w) ∧
    (get_media_new_name_and_path (WatchMedia.movie "Name" 2000) "Name.mkv [extra]" true).1 =
      "Name (2000)" := by
  refine ⟨get_media_eq m tn isf, ?_, extensionSearch_eq_some_iff tn.data e, by decide⟩
  intro hisf
  subst hisf
  rw [get_media_eq]
  rw [show extensionSuffix tn false = "" from rfl, String.append_empty]

/-- C4 witness: the amended characterization applied to a concrete single-file
release name with a trailing extension. -/
theorem get_media_extension_characterization_witness :
    get_media_new_name_and_path (WatchMedia.movie "A" 1) "x.mkv" true = ("A (1).mkv", "A (1)") := by
  rw [(get_media_extension_characterization (WatchMedia.movie "A" 1) "x.mkv" true []).1]
  decide

/-- C4 counterexample: with a release name ending in a newline the code still
appends the extension although the name does not end with dot-plus-word-characters
at end of string, refuting the exactly-when claim as stated. -/
theorem get_media_extension_newline_cex :
    (get_media_new_name_and_path (WatchMedia.movie "Name" 2000) "Name.mkv\n" true).1 =
      "Name (2000).mkv" ∧
    endsWithDotWordChars "Name.mkv\n".data = false := by
  decide

/-- C5: a movie is named title (year) and lives in a directory of the same bare
name; with a single file the release-name extension is appended to the name only,
the directory staying un-extended, as in the Rambo example. -/
theorem get_media_movie (title : String) (releaseYear : Nat) (tn : String) (isf : Bool) :
    get_media_new_name_and_path (WatchMedia.movie title releaseYear) tn isf =
      (title ++ " (" ++ toString releaseYear ++ ")" ++ extensionSuffix tn isf,
       title ++ " (" ++ toString releaseYear ++ ")") ∧
    get_media_new_name_and_path (WatchMedia.movie "Rambo" 1982) "Rambo [scene-stuff].mkv" true =
      ("Rambo (1982).mkv", "Rambo (1982)") := by
  constructor
  · rw [get_media_eq]
    rfl
  · decide

/-- C6: an episode is named SssEee with both numbers zero-padded to two digits, in
the directory given by path-joining the show title with the padded season label. -/
theorem get_media_episode (showTitle : String) (s e : Nat) (tn : String) (isf : Bool)
    (hs : 1 ≤ s) (he : 1 ≤ e) :
    get_media_new_name_and_path (WatchMedia.tvEpisode showTitle s e) tn isf =
      ("S" ++ format02d s ++ "E" ++ format02d e ++ extensionSuffix tn isf,
       osPathJoin showTitle ("Season " ++ format02d s)) := by
  rw [get_media_eq]
  rfl

/-- C6 witness: the Rick and Morty episode example. -/
theorem get_media_episode_witness :
    get_media_new_name_and_path (WatchMedia.tvEpisode "Rick and Morty" 3 14)
      "Rick and Morty - S03E14 [scene-stuff].mkv" true =
      ("S03E14.mkv", "Rick and Morty/Season 03") := by
  rw [get_media_episode "Rick and Morty" 3 14 "Rick and Morty - S03E14 [scene-stuff].mkv" true
    (by decide) (by decide)]
  decide

/-- C7 (amended): a season is named with the padded season label inside the show
directory when the download is not a single file (or when the release name carries
no trailing extension); a single-file season download with a trailing extension
would get the extension appended, violating the any-isSingleFile claim. -/
theorem get_media_season (showTitle : String) (s : Nat) (tn : String) (hs : 1 ≤ s) :
    get_media_new_name_and_path (WatchMedia.tvSeason showTitle s) tn false =
      ("Season " ++ format02d s, showTitle) ∧
    (extensionSearch tn.data = none → ∀ isf,
      get_media_new_name_and_path (WatchMedia.tvSeason showTitle s) tn isf =
        ("Season " ++ format02d s, showTitle)) := by
  constructor
  · rw [get_media_eq]
    rw [show extensionSuffix tn false = "" from rfl, String.append_empty]
    rfl
  · intro hnone isf
    rw [get_media_eq]
    have hsuf : extensionSuffix tn isf = "" := by
      cases isf
      · rfl
      · rw [extensionSuffix, if_pos rfl, hnone]
    rw [hsuf, String.append_empty]
    rfl

/-- C7 witness: the Rick and Morty season example, for either isSingleFile value on
a release name without a trailing extension. -/
theorem get_media_season_witness :
    get_media_new_name_and_path (WatchMedia.tvSeason "Rick and Morty" 3)
      "Rick and Morty - Season 3 [scene-stuff]" true = ("Season 03", "Rick and Morty") := by
  rw [(get_media_season "Rick and Morty" 3 "Rick and Morty - Season 3 [scene-stuff]"
    (by decide)).2 (by decide) true]
  decide

/-- C7 counterexample: with isSingleFile true and a release name carrying a trailing
extension, a season name also receives the extension, so the any-isSingleFile claim
fails. -/
theorem get_media_season_single_file_cex :
    get_media_new_name_and_path (WatchMedia.tvSeason "Rick and Morty" 3) "x.mkv" true =
      ("Season 03.mkv", "Rick and Morty") ∧
    ("Season 03.mkv" : String) ≠ "Season 03" := by
  decide

end Nefarious
